import Mathlib

/-!
Shallow embedding of `src/vec3.rs` (a GLM-style 3-component `f32` vector).

The scalar type `F32` models an IEEE-754 binary32 value as either NaN, a
signed infinity, a signed zero, or a finite value carried as an exact real
number.  Arithmetic on finite values is exact (rounding and overflow are not
modelled: every concrete value appearing in the claims is exactly
representable in binary32 and every claimed identity is rounding-exact),
while the IEEE special-value rules — NaN propagation, signed zeros, division
by zero, `0.0 / 0.0 = NaN`, square root of a negative, `acos` outside
`[-1, 1]`, and the incomparability of NaN — are modelled faithfully.
-/

namespace Vec3

/-- Model of an `f32` value: NaN, signed infinity, signed zero (the `Bool`
is the sign bit, `true` meaning negative), or a finite value carried as an
exact real number.  A `fin 0` value never arises from the modelled
operations (they normalize exact zeros through `mkFin`); if supplied by a
quantifier it behaves exactly like a zero. -/
inductive F32 where
  | nan : F32
  | inf : Bool → F32
  | zero : Bool → F32
  | fin : ℝ → F32

open F32

noncomputable section

/-- Normalize a finite real result of an operation: an exact zero result
becomes `+0.0` (IEEE round-to-nearest sum/difference conventions), any other
real stays a nonzero finite value. -/
def mkFin (r : ℝ) : F32 := if r = 0 then zero false else fin r

/-- Comparison value of an `f32`: `none` for NaN (incomparable), `⊥`/`⊤` for
the infinities, and the real value otherwise; both zeros compare as `0`. -/
def cmpVal : F32 → Option EReal
  | nan => none
  | inf true => some ⊥
  | inf false => some ⊤
  | zero _ => some ((0 : ℝ) : EReal)
  | fin r => some ((r : ℝ) : EReal)

/-- IEEE `==` on `f32` (Rust's derived `PartialEq` compares with `==`):
false whenever either side is NaN, otherwise comparison by value (so
`+0.0 == -0.0` holds). -/
def feq (a b : F32) : Prop :=
  match cmpVal a, cmpVal b with
  | some u, some v => u = v
  | _, _ => False

/-- IEEE `<` on `f32`: false whenever either side is NaN. -/
def flt (a b : F32) : Prop :=
  match cmpVal a, cmpVal b with
  | some u, some v => u < v
  | _, _ => False

/-- IEEE `<=` on `f32`: false whenever either side is NaN. -/
def fle (a b : F32) : Prop :=
  match cmpVal a, cmpVal b with
  | some u, some v => u ≤ v
  | _, _ => False

/-- IEEE `>` on `f32`. -/
def fgt (a b : F32) : Prop := flt b a

/-- IEEE `>=` on `f32`. -/
def fge (a b : F32) : Prop := fle b a

/-- IEEE negation of an `f32` (flips the sign bit; NaN stays NaN). -/
def fneg : F32 → F32
  | nan => nan
  | inf s => inf (!s)
  | zero s => zero (!s)
  | fin r => mkFin (-r)

/-- IEEE addition on `f32`, exact on finite values.  Opposite infinities
give NaN; a sum of zeros is negative only when both operands are `-0.0`
(round-to-nearest); an exactly cancelling finite sum gives `+0.0`. -/
def fadd : F32 → F32 → F32
  | nan, _ => nan
  | _, nan => nan
  | inf s, inf t => if s = t then inf s else nan
  | inf s, zero _ => inf s
  | inf s, fin _ => inf s
  | zero _, inf t => inf t
  | fin _, inf t => inf t
  | zero s, zero t => zero (s && t)
  | zero _, fin r => mkFin r
  | fin r, zero _ => mkFin r
  | fin r, fin q => mkFin (r + q)

/-- IEEE subtraction on `f32`, as addition of the negation (exactly the
IEEE semantics of `x - y`). -/
def fsub (a b : F32) : F32 := fadd a (fneg b)

/-- IEEE multiplication on `f32`, exact on finite values.  Infinity times a
zero is NaN; signs combine by exclusive or. -/
def fmul : F32 → F32 → F32
  | nan, _ => nan
  | _, nan => nan
  | inf s, inf t => inf (xor s t)
  | inf _, zero _ => nan
  | zero _, inf _ => nan
  | inf s, fin r => if r = 0 then nan else if r < 0 then inf (!s) else inf s
  | fin r, inf t => if r = 0 then nan else if r < 0 then inf (!t) else inf t
  | zero s, zero t => zero (xor s t)
  | zero s, fin r => if r < 0 then zero (!s) else zero s
  | fin r, zero t => if r < 0 then zero (!t) else zero t
  | fin r, fin q => mkFin (r * q)

/-- IEEE division on `f32`, exact on finite values.  `0.0 / 0.0` and
`∞ / ∞` are NaN; a nonzero finite value divided by a zero is a signed
infinity; anything finite divided by an infinity is a signed zero. -/
def fdiv : F32 → F32 → F32
  | nan, _ => nan
  | _, nan => nan
  | inf _, inf _ => nan
  | inf s, zero t => inf (xor s t)
  | inf s, fin r => if r < 0 then inf (!s) else inf s
  | zero s, inf t => zero (xor s t)
  | zero _, zero _ => nan
  | zero s, fin r => if r = 0 then nan else if r < 0 then zero (!s) else zero s
  | fin r, inf t => if r < 0 then zero (!t) else zero t
  | fin r, zero t => if r = 0 then nan else if r < 0 then inf (!t) else inf t
  | fin r, fin q =>
    if q = 0 then (if r = 0 then nan else if r < 0 then inf true else inf false)
    else mkFin (r / q)

/-- IEEE square root on `f32`: NaN for NaN, negative infinity and negative
finite inputs; `sqrt (±0.0) = ±0.0`; exact real square root otherwise. -/
def fsqrt : F32 → F32
  | nan => nan
  | inf s => if s then nan else inf false
  | zero s => zero s
  | fin r => if r < 0 then nan else mkFin (Real.sqrt r)

/-- Model of `f32::acos`: NaN for NaN, the infinities and any finite input
outside `[-1, 1]`; the exact real arccosine otherwise (`acos 1 = 0` and
`acos 0 = π/2` are exact in binary32 conventions modelled here). -/
def facos : F32 → F32
  | nan => nan
  | inf _ => nan
  | zero _ => mkFin (Real.arccos 0)
  | fin r => if r < -1 ∨ 1 < r then nan else mkFin (Real.arccos r)

/-- Whether an `f32` is NaN. -/
def isNan : F32 → Bool
  | nan => true
  | _ => false

/-- Whether an `f32` is finite (a zero or a finite value). -/
def isFinite : F32 → Bool
  | zero _ => true
  | fin _ => true
  | _ => false

/-- Real value of a finite `f32` (zeros map to `0`; junk `0` on the
non-finite constructors, which callers exclude). -/
def valF : F32 → ℝ
  | zero _ => 0
  | fin r => r
  | _ => 0

/-- The `Vec3` struct of `vec3.rs`: three public `f32` fields. -/
structure V3 where
  x : F32
  y : F32
  z : F32

/-- The `Zero::zero()` vector `(0.0, 0.0, 0.0)`. -/
def vzero : V3 := ⟨zero false, zero false, zero false⟩

/-- Componentwise structural equality of the derived `PartialEq` on `Vec3`:
all three `f32` components compare `==`. -/
def veq (a b : V3) : Prop := feq a.x b.x ∧ feq a.y b.y ∧ feq a.z b.z

/-- Whether some component of a vector is NaN. -/
def hasNan (v : V3) : Bool := isNan v.x || isNan v.y || isNan v.z

/-- Whether all components of a vector are finite. -/
def allFinite (v : V3) : Bool := isFinite v.x && isFinite v.y && isFinite v.z

/-- The `Add for Vec3` impl: componentwise `+`. -/
def vadd (a b : V3) : V3 := ⟨fadd a.x b.x, fadd a.y b.y, fadd a.z b.z⟩

/-- The `Sub for Vec3` impl: componentwise `-`. -/
def vsub (a b : V3) : V3 := ⟨fsub a.x b.x, fsub a.y b.y, fsub a.z b.z⟩

/-- The `Neg for Vec3` impl: componentwise negation. -/
def vneg (a : V3) : V3 := ⟨fneg a.x, fneg a.y, fneg a.z⟩

/-- The `Mul<f32> for Vec3` impl: componentwise scaling by a scalar. -/
def smul (a : V3) (s : F32) : V3 := ⟨fmul a.x s, fmul a.y s, fmul a.z s⟩

/-- The `From<&[f32]> for Vec3` impl: `assert_eq!(slice.len(), 3)` then the
three elements in order.  The assertion failure (panic) is modelled as
`none`. -/
def fromSlice : List F32 → Option V3
  | [a, b, c] => some ⟨a, b, c⟩
  | _ => none

/-- The `Vec3::dot` method: `x*x' + y*y' + z*z'`, summed left to right. -/
def dot (a b : V3) : F32 :=
  fadd (fadd (fmul a.x b.x) (fmul a.y b.y)) (fmul a.z b.z)

/-- The `Vec3::cross` method (right-handed cross product). -/
def cross (a b : V3) : V3 :=
  ⟨fsub (fmul a.y b.z) (fmul a.z b.y),
   fsub (fmul a.z b.x) (fmul a.x b.z),
   fsub (fmul a.x b.y) (fmul a.y b.x)⟩

/-- The `Vec3::length` method: `self.dot(self).sqrt()`. -/
def length (a : V3) : F32 := fsqrt (dot a a)

/-- The `Vec3::normalized` method: each component divided by the length
(no guard for zero length). -/
def normalized (a : V3) : V3 :=
  ⟨fdiv a.x (length a), fdiv a.y (length a), fdiv a.z (length a)⟩

/-- The `Vec3::reflect` method: `self - (*normal * self.dot(normal)) * 2.0`. -/
def reflect (a n : V3) : V3 :=
  vsub a (smul (smul n (dot a n)) (fin 2))

open Classical in
/-- The `Vec3::refract` method, following the source line by line:
`dot_ni = self.dot(&normal)`; `eta` is kept when `dot_ni > 0.0` and
replaced by `1.0 / eta` otherwise; `k = 1.0 - eta * eta * (1.0 - dot_ni *
dot_ni)`; the `k < 0.0` branch yields `self * eta`, the other branch the
full refraction vector; `.normalized()` applies to whichever branch was
taken. -/
def refract (a n : V3) (eta : F32) : V3 :=
  let dot_ni := dot a n
  let e := if fgt dot_ni (zero false) then eta else fdiv (fin 1) eta
  let k := fsub (fin 1) (fmul (fmul e e) (fsub (fin 1) (fmul dot_ni dot_ni)))
  normalized
    (if flt k (zero false) then smul a e
     else vsub (smul a e) (smul n (fadd (fmul e dot_ni) (fsqrt k))))

/-- The `Vec3::angle` method:
`self.normalized().dot(&other.normalized()).acos()`. -/
def angle (a b : V3) : F32 := facos (dot (normalized a) (normalized b))

end

/-! Helper lemmas about the finite fragment of the `f32` model. -/

@[simp]
lemma isFinite_nan : isFinite nan = false := rfl

@[simp]
lemma isFinite_inf (s : Bool) : isFinite (inf s) = false := rfl

@[simp]
lemma isFinite_zero (s : Bool) : isFinite (zero s) = true := rfl

@[simp]
lemma isFinite_fin (r : ℝ) : isFinite (fin r) = true := rfl

@[simp]
lemma valF_zero (s : Bool) : valF (zero s) = 0 := rfl

@[simp]
lemma valF_fin (r : ℝ) : valF (fin r) = r := rfl

@[simp]
lemma cmpVal_nan : cmpVal nan = none := rfl

@[simp]
lemma cmpVal_inf_neg : cmpVal (inf true) = some ⊥ := rfl

@[simp]
lemma cmpVal_inf_pos : cmpVal (inf false) = some ⊤ := rfl

@[simp]
lemma cmpVal_zero (s : Bool) : cmpVal (zero s) = some ((0 : ℝ) : EReal) := rfl

@[simp]
lemma cmpVal_fin (r : ℝ) : cmpVal (fin r) = some ((r : ℝ) : EReal) := rfl

@[simp]
lemma isFinite_mkFin (r : ℝ) : isFinite (mkFin r) = true := by
  unfold mkFin; split <;> simp

@[simp]
lemma valF_mkFin (r : ℝ) : valF (mkFin r) = r := by
  unfold mkFin; split <;> simp_all

@[simp]
lemma cmpVal_mkFin (r : ℝ) : cmpVal (mkFin r) = some ((r : ℝ) : EReal) := by
  unfold mkFin; split <;> simp_all

lemma cmpVal_of_finite (x : F32) (h : isFinite x = true) :
    cmpVal x = some ((valF x : ℝ) : EReal) := by
  cases x <;> simp_all

lemma feq_of_finite (x y : F32) (hx : isFinite x = true)
    (hy : isFinite y = true) : feq x y ↔ valF x = valF y := by
  simp [feq, cmpVal_of_finite x hx, cmpVal_of_finite y hy,
    EReal.coe_eq_coe_iff]

lemma finite_of_feq_zero (x : F32) (s : Bool) (h : feq x (zero s)) :
    isFinite x = true ∧ valF x = 0 := by
  cases x with
  | nan => simp [feq] at h
  | inf b => cases b <;> simp [feq] at h
  | zero b => simp
  | fin r =>
    simp only [feq, cmpVal_fin, cmpVal_zero, EReal.coe_eq_coe_iff] at h
    simp [h]

lemma fadd_finite (x y : F32) (hx : isFinite x = true)
    (hy : isFinite y = true) :
    isFinite (fadd x y) = true ∧ valF (fadd x y) = valF x + valF y := by
  cases x <;> cases y <;> simp_all [fadd]

lemma fmul_finite (x y : F32) (hx : isFinite x = true)
    (hy : isFinite y = true) :
    isFinite (fmul x y) = true ∧ valF (fmul x y) = valF x * valF y := by
  cases x <;> cases y <;> simp_all [fmul] <;> split_ifs <;> simp

lemma fneg_finite (x : F32) (hx : isFinite x = true) :
    isFinite (fneg x) = true ∧ valF (fneg x) = -valF x := by
  cases x <;> simp_all [fneg]

lemma fsub_finite (x y : F32) (hx : isFinite x = true)
    (hy : isFinite y = true) :
    isFinite (fsub x y) = true ∧ valF (fsub x y) = valF x - valF y := by
  have hn := fneg_finite y hy
  have ha := fadd_finite x (fneg y) hx hn.1
  unfold fsub
  exact ⟨ha.1, by rw [ha.2, hn.2]; ring⟩

lemma fsqrt_finite (x : F32) (hx : isFinite x = true) (hv : 0 ≤ valF x) :
    isFinite (fsqrt x) = true ∧ valF (fsqrt x) = Real.sqrt (valF x) := by
  cases x with
  | nan => simp at hx
  | inf s => simp at hx
  | zero s => simp [fsqrt, Real.sqrt_eq_zero']
  | fin r =>
    have : ¬ r < 0 := by simp at hv; linarith
    simp [fsqrt, this]

lemma finite_of_fadd_finite (x y : F32) (h : isFinite (fadd x y) = true) :
    isFinite x = true ∧ isFinite y = true := by
  cases x <;> cases y <;> simp_all [fadd] <;> split at h <;> simp_all

lemma finite_of_fmul_finite (x y : F32) (h : isFinite (fmul x y) = true) :
    isFinite x = true ∧ isFinite y = true := by
  cases x <;> cases y <;> simp_all [fmul] <;> split_ifs at h <;> simp_all

lemma eq_nan_of_isNan (x : F32) (h : isNan x = true) : x = nan := by
  cases x <;> simp_all [isNan]

/-! Shared concrete vectors used in the claims. -/

/-- The unit vector `(1.0, 0.0, 0.0)`. -/
def e1 : V3 := ⟨fin 1, zero false, zero false⟩

/-- The unit vector `(0.0, 1.0, 0.0)`. -/
def e2 : V3 := ⟨zero false, fin 1, zero false⟩

/-- The vector `(3.0, 4.0, 0.0)`. -/
def v340 : V3 := ⟨fin 3, fin 4, zero false⟩

/-- A vector with a NaN first component. -/
def vnanx : V3 := ⟨nan, zero false, zero false⟩

/-- A vector with an infinite first component. -/
def vinfx : V3 := ⟨inf false, zero false, zero false⟩

/-! Claims. -/

/-- C3: constructing a `Vec3` from a slice panics (modelled as `none`)
exactly when the slice length is not 3, and for a length-3 slice yields the
vector whose `x`, `y`, `z` are the first, second and third elements in
order — no truncation or padding. -/
theorem claim_C3_from_slice (l : List F32) :
    (fromSlice l = none ↔ l.length ≠ 3) ∧
    (∀ a b c : F32, fromSlice [a, b, c] = some ⟨a, b, c⟩) := by
  refine ⟨?_, fun a b c => rfl⟩
  match l with
  | [] => simp [fromSlice]
  | [a] => simp [fromSlice]
  | [a, b] => simp [fromSlice]
  | [a, b, c] => simp [fromSlice]
  | a :: b :: c :: d :: t => simp [fromSlice]

/-- C9: normalizing the zero vector divides each component `0.0` by the
length `0.0`, producing NaN (not an infinity) in all three components; the
operation is total (no panic in the model). -/
theorem claim_C9_normalized_zero :
    normalized vzero = ⟨nan, nan, nan⟩ ∧
    length vzero = zero false ∧
    (∀ s t : Bool, fdiv (zero s) (zero t) = nan) := by
  refine ⟨rfl, rfl, fun s t => rfl⟩

/-- C10: the derived componentwise `f32` equality is not reflexive: a
vector with a NaN component is not equal to itself, while zeros compare
equal regardless of sign, so vectors differing only in zero signs are
equal. -/
theorem claim_C10_eq_not_reflexive (v : V3) (h : hasNan v = true) :
    ¬ veq v v ∧ (∀ s t : Bool, feq (zero s) (zero t)) ∧
    veq ⟨zero false, fin 1, zero true⟩ ⟨zero true, fin 1, zero false⟩ := by
  refine ⟨?_, fun s t => by simp [feq], by simp [veq, feq]⟩
  simp only [hasNan, Bool.or_eq_true] at h
  rcases h with (hx | hy) | hz
  · exact fun hv => by
      have := eq_nan_of_isNan _ hx
      have h1 := hv.1
      rw [this] at h1
      simp [feq] at h1
  · exact fun hv => by
      have := eq_nan_of_isNan _ hy
      have h1 := hv.2.1
      rw [this] at h1
      simp [feq] at h1
  · exact fun hv => by
      have := eq_nan_of_isNan _ hz
      have h1 := hv.2.2
      rw [this] at h1
      simp [feq] at h1

/-- C10 witness: the concrete vector `(NaN, 0.0, 0.0)` is not equal to
itself. -/
theorem claim_C10_witness : hasNan vnanx = true ∧ ¬ veq vnanx vnanx :=
  ⟨rfl, (claim_C10_eq_not_reflexive vnanx rfl).1⟩

lemma fadd_zero_feq (x : F32) (h : isNan x = false) :
    feq (fadd x (zero false)) x := by
  cases x with
  | nan => simp [isNan] at h
  | inf s => cases s <;> simp [fadd, feq]
  | zero s => simp [fadd, feq]
  | fin r => simp [fadd, feq]

lemma fmul_one_feq (x : F32) (h : isNan x = false) :
    feq (fmul x (fin 1)) x := by
  cases x with
  | nan => simp [isNan] at h
  | inf s =>
    rw [show fmul (inf s) (fin 1) = inf s by
      simp [fmul, show ¬(1 : ℝ) = 0 by norm_num, show ¬(1 : ℝ) < 0 by norm_num]]
    cases s <;> simp [feq]
  | zero s => simp [fmul, show ¬(1 : ℝ) < 0 by norm_num, feq]
  | fin r => simp [fmul, feq]

lemma fneg_fneg_feq (x : F32) (h : isNan x = false) :
    feq (fneg (fneg x)) x := by
  cases x with
  | nan => simp [isNan] at h
  | inf s => cases s <;> simp [fneg, feq]
  | zero s => simp [fneg, feq]
  | fin r =>
    by_cases hr : r = 0
    · simp [fneg, mkFin, hr, feq]
    · simp [fneg, mkFin, hr, neg_eq_zero, feq]

lemma fsub_self_feq (x : F32) (h : isFinite x = true) :
    feq (fsub x x) (zero false) := by
  have hs := fsub_finite x x h h
  rw [feq_of_finite _ _ hs.1 (by simp)]
  simp [hs.2]

/-- C4 counterexample: at `v = (NaN, 0.0, 0.0)` every one of the four
identity laws fails (NaN is not `==` to itself), and at `v = (∞, 0.0, 0.0)`
the law `v - v == zero()` additionally fails because `∞ - ∞` is NaN. -/
theorem claim_C4_counterexample :
    ¬ (veq (vadd vnanx vzero) vnanx ∧ veq (vsub vnanx vnanx) vzero ∧
       veq (smul vnanx (fin 1)) vnanx ∧ veq (vneg (vneg vnanx)) vnanx) ∧
    ¬ veq (vsub vinfx vinfx) vzero := by
  constructor
  · intro hc
    have := hc.1.1
    simp [vnanx, vadd, fadd, feq] at this
  · intro hc
    have := hc.1
    simp [vinfx, vsub, fsub, fadd, fneg, feq] at this

/-- C4 (amended): the identity laws hold componentwise under IEEE `==` for
every vector without NaN components — `v + zero() == v`, `v * 1 == v`,
`-(-v) == v` — and `v - v == zero()` holds for every vector all of whose
components are finite (for an infinite component, `∞ - ∞` is NaN). -/
theorem claim_C4_identity_laws (v : V3) (hN : hasNan v = false) :
    veq (vadd v vzero) v ∧ veq (smul v (fin 1)) v ∧
    veq (vneg (vneg v)) v ∧
    (allFinite v = true → veq (vsub v v) vzero) := by
  simp only [hasNan, Bool.or_eq_false_iff] at hN
  obtain ⟨⟨hx, hy⟩, hz⟩ := hN
  refine ⟨⟨?_, ?_, ?_⟩, ⟨?_, ?_, ?_⟩, ⟨?_, ?_, ?_⟩, ?_⟩
  · exact fadd_zero_feq _ hx
  · exact fadd_zero_feq _ hy
  · exact fadd_zero_feq _ hz
  · exact fmul_one_feq _ hx
  · exact fmul_one_feq _ hy
  · exact fmul_one_feq _ hz
  · exact fneg_fneg_feq _ hx
  · exact fneg_fneg_feq _ hy
  · exact fneg_fneg_feq _ hz
  · intro hF
    simp only [allFinite, Bool.and_eq_true] at hF
    exact ⟨fsub_self_feq _ hF.1.1, fsub_self_feq _ hF.1.2, fsub_self_feq _ hF.2⟩

/-- C4 witness: the amended identity laws at the concrete vector
`(1.0, 0.0, 0.0)`. -/
theorem claim_C4_witness :
    hasNan e1 = false ∧ allFinite e1 = true ∧
    veq (vadd e1 vzero) e1 ∧ veq (vsub e1 e1) vzero :=
  ⟨rfl, rfl, (claim_C4_identity_laws e1 rfl).1,
    (claim_C4_identity_laws e1 rfl).2.2.2 rfl⟩

/-- C5 counterexample: at `a = (NaN, 0.0, 0.0)` and `b = zero()` the
anticommutativity equation fails, because both sides have a NaN component
and NaN is not `==` to itself. -/
theorem claim_C5_counterexample :
    ¬ veq (cross vnanx vzero) (vneg (cross vzero vnanx)) := by
  intro hc
  have := hc.2.1
  simp [vnanx, vzero, cross, vneg, fsub, fadd, fmul, fneg, feq] at this

lemma fmul_comm (x y : F32) : fmul x y = fmul y x := by
  cases x <;> cases y <;> simp [fmul, Bool.xor_comm, mul_comm]

lemma fsub_neg_anticomm (U V : F32) (h : isNan (fsub U V) = false) :
    feq (fsub U V) (fneg (fsub V U)) := by
  have hfin : ∀ (X Y : F32), isFinite X = true → isFinite Y = true →
      feq (fsub X Y) (fneg (fsub Y X)) := by
    intro X Y hX hY
    have h5 := fsub_finite X Y hX hY
    have h6 := fsub_finite Y X hY hX
    have h7 := fneg_finite _ h6.1
    rw [feq_of_finite _ _ h5.1 h7.1, h5.2, h7.2, h6.2]
    ring
  cases U with
  | nan => simp [fsub, fadd, isNan] at h
  | inf s =>
    cases V with
    | nan => simp [fsub, fneg, fadd, isNan] at h
    | inf t => cases s <;> cases t <;> simp_all [fsub, fneg, fadd, feq, isNan]
    | zero t => cases s <;> simp [fsub, fneg, fadd, feq]
    | fin r =>
      have hm : fsub (inf s) (fin r) = inf s := by
        show fadd (inf s) (mkFin (-r)) = inf s
        unfold mkFin; split <;> rfl
      rw [hm]
      cases s <;> simp [fsub, fneg, fadd, feq]
  | zero s =>
    cases V with
    | nan => simp [fsub, fneg, fadd, isNan] at h
    | inf t => cases t <;> simp [fsub, fneg, fadd, feq]
    | zero t => exact hfin _ _ rfl rfl
    | fin r => exact hfin _ _ rfl rfl
  | fin r =>
    cases V with
    | nan => simp [fsub, fneg, fadd, isNan] at h
    | inf t =>
      have hm : fsub (inf t) (fin r) = inf t := by
        show fadd (inf t) (mkFin (-r)) = inf t
        unfold mkFin; split <;> rfl
      rw [show fneg (fsub (inf t) (fin r)) = inf (!t) from by rw [hm]; rfl]
      cases t <;> simp [fsub, fneg, fadd, feq]
    | zero t => exact hfin _ _ rfl rfl
    | fin q => exact hfin _ _ rfl rfl

/-- C5 (amended): whenever the computed cross product `cross(a, b)` has no
NaN component, `cross(a, b) == -cross(b, a)` componentwise.  (Requiring
only finite inputs would not be enough in `f32`: products of finite
components can overflow to `∞`, and `∞ - ∞` is NaN on both sides, e.g. at
`a = b = (0, MAX, MAX)`; the NaN-free-result hypothesis rules those cases
out.  Infinite intermediate products and differences are still allowed and
covered.) -/
theorem claim_C5_cross_anticomm (a b : V3)
    (h : hasNan (cross a b) = false) :
    veq (cross a b) (vneg (cross b a)) := by
  simp only [hasNan, Bool.or_eq_false_iff] at h
  obtain ⟨⟨hx, hy⟩, hz⟩ := h
  refine ⟨?_, ?_, ?_⟩
  · show feq (fsub (fmul a.y b.z) (fmul a.z b.y))
      (fneg (fsub (fmul b.y a.z) (fmul b.z a.y)))
    rw [fmul_comm b.y a.z, fmul_comm b.z a.y]
    exact fsub_neg_anticomm _ _ hx
  · show feq (fsub (fmul a.z b.x) (fmul a.x b.z))
      (fneg (fsub (fmul b.z a.x) (fmul b.x a.z)))
    rw [fmul_comm b.z a.x, fmul_comm b.x a.z]
    exact fsub_neg_anticomm _ _ hy
  · show feq (fsub (fmul a.x b.y) (fmul a.y b.x))
      (fneg (fsub (fmul b.x a.y) (fmul b.y a.x)))
    rw [fmul_comm b.x a.y, fmul_comm b.y a.x]
    exact fsub_neg_anticomm _ _ hz

lemma hasNan_cross_e1_e2 : hasNan (cross e1 e2) = false := by
  norm_num [hasNan, cross, e1, e2, fmul, fsub, fadd, fneg, mkFin, isNan]

/-- C5 witness: anticommutativity at the concrete vectors `(1, 0, 0)` and
`(0, 1, 0)`, whose cross product `(0, 0, 1)` has no NaN component. -/
theorem claim_C5_witness :
    hasNan (cross e1 e2) = false ∧ veq (cross e1 e2) (vneg (cross e2 e1)) :=
  ⟨hasNan_cross_e1_e2, claim_C5_cross_anticomm e1 e2 hasNan_cross_e1_e2⟩

lemma dot_self_finite (v : V3) (h : allFinite v = true) :
    isFinite (dot v v) = true ∧
    valF (dot v v) =
      valF v.x * valF v.x + valF v.y * valF v.y + valF v.z * valF v.z := by
  simp only [allFinite, Bool.and_eq_true] at h
  have h1 := fmul_finite v.x v.x h.1.1 h.1.1
  have h2 := fmul_finite v.y v.y h.1.2 h.1.2
  have h3 := fmul_finite v.z v.z h.2 h.2
  have h4 := fadd_finite _ _ h1.1 h2.1
  have h5 := fadd_finite _ _ h4.1 h3.1
  exact ⟨h5.1, by unfold dot; rw [h5.2, h4.2, h1.2, h2.2, h3.2]⟩

/-- C6: `length` is `sqrt (dot a a)` for every vector; it is `>= 0` for
every vector with finite components; `length (zero())` is exactly `0.0`;
and `length (3, 4, 0)` is exactly `5.0`. -/
theorem claim_C6_length (v : V3) (h : allFinite v = true) :
    (∀ a : V3, length a = fsqrt (dot a a)) ∧
    fge (length v) (zero false) ∧
    feq (length vzero) (zero false) ∧
    feq (length v340) (fin 5) := by
  refine ⟨fun a => rfl, ?_,
    by simp [feq, length, vzero, dot, fmul, fadd, fsqrt], ?_⟩
  · have hd := dot_self_finite v h
    have hnn : 0 ≤ valF (dot v v) := by
      rw [hd.2]
      have hx := mul_self_nonneg (valF v.x)
      have hy := mul_self_nonneg (valF v.y)
      have hz := mul_self_nonneg (valF v.z)
      linarith
    have hs := fsqrt_finite _ hd.1 hnn
    have : fle (zero false) (fsqrt (dot v v)) := by
      simp only [fle, cmpVal_zero, cmpVal_of_finite _ hs.1]
      exact EReal.coe_le_coe_iff.mpr (by rw [hs.2]; exact Real.sqrt_nonneg _)
    exact this
  · have hd := dot_self_finite v340 rfl
    have hv : valF (dot v340 v340) = 25 := by rw [hd.2]; norm_num [v340]
    have hs := fsqrt_finite _ hd.1 (by rw [hv]; norm_num)
    rw [show length v340 = fsqrt (dot v340 v340) from rfl,
      feq_of_finite _ _ hs.1 (by simp), hs.2, hv]
    simp only [valF_fin]
    rw [show (25 : ℝ) = 5 ^ 2 by norm_num]
    exact Real.sqrt_sq (by norm_num)

/-- C6 witness: the length of the concrete finite vector `(3, 4, 0)` is
non-negative under IEEE `>=`. -/
theorem claim_C6_witness :
    allFinite v340 = true ∧ fge (length v340) (zero false) :=
  ⟨rfl, (claim_C6_length v340 rfl).2.1⟩

lemma normalized_e1 : normalized e1 = e1 := by
  have hlen : length e1 = fin 1 := by
    norm_num [length, dot, e1, fmul, fadd, fsqrt, mkFin, Real.sqrt_one]
  show (⟨fdiv e1.x (length e1), fdiv e1.y (length e1),
    fdiv e1.z (length e1)⟩ : V3) = e1
  rw [hlen]
  norm_num [e1, fdiv, mkFin]

/-- C7: `angle` is exactly `acos (dot (normalized a) (normalized b))`, the
dot product is not clamped before `acos` (a value above `1` yields NaN),
and the angle of `(1, 0, 0)` with itself is exactly `0.0`. -/
theorem claim_C7_angle (q : ℝ) (hq : 1 < q) :
    (∀ a b : V3, angle a b = facos (dot (normalized a) (normalized b))) ∧
    facos (fin q) = nan ∧
    feq (angle e1 e1) (zero false) := by
  refine ⟨fun a b => rfl, ?_, ?_⟩
  · simp only [facos]
    rw [if_pos (Or.inr hq)]
  · have hdot : dot (normalized e1) (normalized e1) = fin 1 := by
      rw [normalized_e1]
      norm_num [dot, e1, fmul, fadd, mkFin]
    rw [show angle e1 e1 = facos (dot (normalized e1) (normalized e1)) from
      rfl, hdot]
    norm_num [facos, mkFin, Real.arccos_one, feq]

/-- C7 witness: `acos` of the out-of-range value `2.0` is NaN, showing the
dot product is not clamped. -/
theorem claim_C7_witness : (1 : ℝ) < 2 ∧ facos (fin 2) = nan :=
  ⟨by norm_num, (claim_C7_angle 2 (by norm_num)).2.1⟩

lemma reflect_comp (ax nx D : F32) (hax : isFinite ax = true)
    (hnx : isFinite nx = true) (hD : isFinite D = true)
    (hD0 : valF D = 0) :
    feq (fsub ax (fmul (fmul nx D) (fin 2))) ax := by
  have h1 := fmul_finite nx D hnx hD
  have h2 := fmul_finite _ (fin 2) h1.1 (by simp)
  have h3 := fsub_finite ax _ hax h2.1
  rw [feq_of_finite _ _ h3.1 hax, h3.2, h2.2, h1.2, hD0]
  ring

lemma dot_e1_e2_eq_zero : feq (dot e1 e2) (zero false) := by
  norm_num [dot, e1, e2, fmul, fadd, feq]

/-- C8: `reflect` is exactly `a - normal * dot(a, normal) * 2`; a vector
whose dot product with the normal is exactly `0.0` is reflected to a vector
`==`-equal to itself; in particular reflecting `(1, 0, 0)` about the normal
`(0, 1, 0)` gives back `(1, 0, 0)`. -/
theorem claim_C8_reflect (a n : V3) (h : feq (dot a n) (zero false)) :
    (∀ b m : V3, reflect b m = vsub b (smul (smul m (dot b m)) (fin 2))) ∧
    veq (reflect a n) a ∧ veq (reflect e1 e2) e1 := by
  refine ⟨fun b m => rfl, ?_, ?_⟩
  · have hD := finite_of_feq_zero _ _ h
    have h12 := finite_of_fadd_finite _ _ hD.1
    have h12' := finite_of_fadd_finite _ _ h12.1
    have hx := finite_of_fmul_finite _ _ h12'.1
    have hy := finite_of_fmul_finite _ _ h12'.2
    have hz := finite_of_fmul_finite _ _ h12.2
    exact ⟨reflect_comp _ _ _ hx.1 hx.2 hD.1 hD.2,
      reflect_comp _ _ _ hy.1 hy.2 hD.1 hD.2,
      reflect_comp _ _ _ hz.1 hz.2 hD.1 hD.2⟩
  · norm_num [reflect, vsub, smul, dot, fmul, fadd, fneg, fsub, mkFin,
      e1, e2, veq, feq]

/-- C8 witness: the in-plane vector `(1, 0, 0)` and normal `(0, 1, 0)` have
dot product exactly `0.0`, and the reflection returns the vector itself. -/
theorem claim_C8_witness :
    feq (dot e1 e2) (zero false) ∧ veq (reflect e1 e2) e1 :=
  ⟨dot_e1_e2_eq_zero, (claim_C8_reflect e1 e2 dot_e1_e2_eq_zero).2.1⟩

lemma not_flt_of_fge (x y : F32) (h : fge x y) : ¬ flt x y := by
  intro hlt
  unfold fge fle at h
  unfold flt at hlt
  cases hx : cmpVal x <;> cases hy : cmpVal y <;> rw [hx, hy] at h hlt <;>
    simp_all <;> exact absurd hlt (not_lt.mpr h)

open Classical in
/-- C1: `refract` follows the stated algorithm: with `dot_ni = dot a n`,
the effective index is `eta` when `dot_ni > 0.0` and `1.0 / eta`
otherwise, the discriminant is `k = 1 - eta' * eta' * (1 - dot_ni *
dot_ni)`, and whenever `k >= 0` the result is
`normalized (a * eta' - n * (eta' * dot_ni + sqrt k))`. -/
theorem claim_C1_refract (a n : V3) (eta dot_ni eff k : F32)
    (hd : dot_ni = dot a n)
    (he : eff = if fgt dot_ni (zero false) then eta else fdiv (fin 1) eta)
    (hk : k = fsub (fin 1)
      (fmul (fmul eff eff) (fsub (fin 1) (fmul dot_ni dot_ni))))
    (hge : fge k (zero false)) :
    refract a n eta =
      normalized (vsub (smul a eff)
        (smul n (fadd (fmul eff dot_ni) (fsqrt k)))) := by
  subst hd he hk
  unfold refract
  simp only []
  rw [if_neg (not_flt_of_fge _ _ hge)]

open Classical in
/-- C2: whenever the discriminant `k` is negative (total internal
reflection), `refract` returns `normalized (a * eta')` with the flipped
effective index `eta'` — the normalization is applied in this branch too. -/
theorem claim_C2_refract_tir (a n : V3) (eta dot_ni eff k : F32)
    (hd : dot_ni = dot a n)
    (he : eff = if fgt dot_ni (zero false) then eta else fdiv (fin 1) eta)
    (hk : k = fsub (fin 1)
      (fmul (fmul eff eff) (fsub (fin 1) (fmul dot_ni dot_ni))))
    (hlt : flt k (zero false)) :
    refract a n eta = normalized (smul a eff) := by
  subst hd he hk
  unfold refract
  simp only []
  rw [if_pos hlt]

open Classical in
/-- Effective index selected by `refract` for the C1 witness inputs
(`a = n = (1,0,0)`, `eta = 2.0`). -/
noncomputable def effC1 : F32 :=
  if fgt (dot e1 e1) (zero false) then fin 2 else fdiv (fin 1) (fin 2)

/-- Discriminant computed by `refract` for the C1 witness inputs. -/
noncomputable def kC1 : F32 :=
  fsub (fin 1)
    (fmul (fmul effC1 effC1) (fsub (fin 1) (fmul (dot e1 e1) (dot e1 e1))))

lemma dot_e1_e1_eq : dot e1 e1 = fin 1 := by
  norm_num [dot, e1, fmul, fadd, mkFin]

lemma fgt_fin_one_zero : fgt (fin 1) (zero false) := by
  simp only [fgt, flt, cmpVal_zero, cmpVal_fin]
  exact EReal.coe_lt_coe_iff.mpr (by norm_num)

lemma effC1_eq : effC1 = fin 2 := by
  unfold effC1
  rw [dot_e1_e1_eq, if_pos fgt_fin_one_zero]

lemma kC1_eq : kC1 = fin 1 := by
  unfold kC1
  rw [dot_e1_e1_eq, effC1_eq]
  norm_num [fmul, fsub, fadd, fneg, mkFin]

/-- C1 witness: at `a = n = (1,0,0)` and `eta = 2.0` the discriminant is
non-negative and `refract` returns the normalized refraction vector. -/
theorem claim_C1_witness :
    fge kC1 (zero false) ∧
    refract e1 e1 (fin 2) =
      normalized (vsub (smul e1 effC1)
        (smul e1 (fadd (fmul effC1 (dot e1 e1)) (fsqrt kC1)))) := by
  have hge : fge kC1 (zero false) := by
    rw [kC1_eq]
    simp only [fge, fle, cmpVal_zero, cmpVal_fin]
    exact EReal.coe_le_coe_iff.mpr (by norm_num)
  exact ⟨hge, claim_C1_refract e1 e1 (fin 2) (dot e1 e1) effC1 kC1
    rfl rfl rfl hge⟩

open Classical in
/-- Effective index selected by `refract` for the C2 witness inputs
(`a = (1,0,0)`, `n = (0,1,0)`, `eta = 0.5`): the dot product is zero, so
the index is flipped to `1 / 0.5 = 2`. -/
noncomputable def effC2 : F32 :=
  if fgt (dot e1 e2) (zero false) then fin (1 / 2)
  else fdiv (fin 1) (fin (1 / 2))

/-- Discriminant computed by `refract` for the C2 witness inputs:
`1 - 2 * 2 * (1 - 0) = -3`. -/
noncomputable def kC2 : F32 :=
  fsub (fin 1)
    (fmul (fmul effC2 effC2) (fsub (fin 1) (fmul (dot e1 e2) (dot e1 e2))))

lemma dot_e1_e2_eq : dot e1 e2 = zero false := by
  norm_num [dot, e1, e2, fmul, fadd, mkFin]

lemma effC2_eq : effC2 = fin 2 := by
  unfold effC2
  rw [dot_e1_e2_eq, if_neg (by simp [fgt, flt])]
  norm_num [fdiv, mkFin]

lemma kC2_eq : kC2 = fin (-3) := by
  unfold kC2
  rw [dot_e1_e2_eq, effC2_eq]
  norm_num [fmul, fsub, fadd, fneg, mkFin]

/-- C2 witness: at `a = (1,0,0)`, `n = (0,1,0)`, `eta = 0.5` the
discriminant is `-3 < 0` and `refract` returns `normalized (a * 2)`. -/
theorem claim_C2_witness :
    flt kC2 (zero false) ∧
    refract e1 e2 (fin (1 / 2)) = normalized (smul e1 effC2) := by
  have hlt : flt kC2 (zero false) := by
    rw [kC2_eq]
    simp only [flt, cmpVal_zero, cmpVal_fin]
    exact EReal.coe_lt_coe_iff.mpr (by norm_num)
  exact ⟨hlt, claim_C2_refract_tir e1 e2 (fin (1 / 2)) (dot e1 e2) effC2 kC2
    rfl rfl rfl hlt⟩

end Vec3
